import Mathlib

/-!
Verification of the `hex_merge` tool (src/hex_merge.py): an Intel-HEX / raw-BIN
merger that collects addressed byte chunks, merges overlapping or adjacent
chunks into sorted spans (`collect_segments`), and serializes the spans into a
flat padded image (`write_bin`).

Modelling conventions:
* Addresses are `Int` (Python integers are unbounded and signed).
* Bytes are `Nat` (each in `[0, 256)` for real inputs; nothing here overflows).
* Python's stable `list.sort(key=lambda x: x[0])` is modelled by
  `List.insertionSort` on the start-address order.  Both are stable sorts by
  the same key, hence produce the same list.
* File-system reads, `argparse` and the `@addr` token splitting are out of
  scope per the spec; `collect_segments` takes the already-dispatched input
  items (kind, presence, content, optional load address).
* `sys.exit(1)` and uncaught exceptions are modelled by `Except.error`.
-/

namespace HexMerge

/-- A merged segment `(start, end, data)`, the triple the Python code keeps in
its `merged` list. -/
structure Span where
  st : Int
  ed : Int
  bs : List Nat
deriving DecidableEq, Repr

/-- Well-formedness of a span: the byte run has length `end - start`
(stated additively to avoid truncated subtraction). -/
def SpanWF (s : Span) : Prop := s.ed = s.st + s.bs.length

/-- `segs.append((addr, addr + len(data), data))` — chunk to span. -/
def toSpan (c : Int × List Nat) : Span := ⟨c.1, c.1 + c.2.length, c.2⟩

/-- Sort key of `segs.sort(key=lambda x: x[0])`: compare start addresses. -/
def spanLE (a b : Span) : Prop := a.st ≤ b.st

instance : DecidableRel spanLE := fun a b => Int.decLe a.st b.st

instance : IsTotal Span spanLE := ⟨fun a b => Int.le_total a.st b.st⟩

instance : IsTrans Span spanLE := ⟨fun _ _ _ hab hbc => le_trans hab hbc⟩

/-- One iteration of the merge loop in `collect_segments` (lines 80-92).
The accumulator is kept in reverse order: its head is Python's `merged[-1]`. -/
def mergeStep (merged : List Span) (s : Span) : List Span :=
  match merged with
  | [] => [s]
  | t :: rest =>
    if s.st ≤ t.ed then
      -- overlap or adjacency
      let new_ed := max s.ed t.ed
      if s.st < t.st then
        -- backward extension: data[:lst-st] + ldata
        ⟨s.st, new_ed, s.bs.take (t.st - s.st).toNat ++ t.bs⟩ :: rest
      else if s.ed > t.ed then
        -- forward extension: ldata + data[led-st:]
        ⟨t.st, new_ed, t.bs ++ s.bs.drop (t.ed - s.st).toNat⟩ :: rest
      else
        -- fully contained: merged[-1] unchanged
        t :: rest
    else
      s :: t :: rest

/-- The sort-and-fold part of `collect_segments` (lines 77-93): chunks to the
merged, sorted span list. -/
def mergeSegs (chunks : List (Int × List Nat)) : List Span :=
  ((List.insertionSort spanLE (chunks.map toSpan)).foldl mergeStep []).reverse

/-- Each element twice, in place: the sorted arrangement of a strictly
increasing list concatenated with itself. -/
def dup : List Span → List Span
  | [] => []
  | s :: t => s :: s :: dup t

/-- The write loop of `write_bin` (lines 112-118): returns the emitted bytes
and the final cursor position. -/
def writeLoop (pad : Nat) : Int → List Span → List Nat × Int
  | pos, [] => ([], pos)
  | pos, s :: rest =>
    let gap := if pos < s.st then List.replicate (s.st - pos).toNat pad else []
    let r := writeLoop pad s.ed rest
    (gap ++ s.bs ++ r.1, r.2)

/-- Observable outcome of `write_bin`: the bytes written to the output file and
whether the "no data segments" warning was printed. -/
structure WriteResult where
  noData : Bool
  bytes : List Nat
deriving DecidableEq, Repr

/-- `segments[0][0]` for a non-empty list. -/
def firstSt (l : List Span) : Int := (l.headD ⟨0, 0, []⟩).st

/-- `segments[-1][1]` for a non-empty list. -/
def lastEd (l : List Span) : Int := (l.getLastD ⟨0, 0, []⟩).ed

/-- Final cursor of the write loop: the last span's end, or `pos` if none. -/
def lastEdD (pos : Int) : List Span → Int
  | [] => pos
  | s :: t => lastEdD s.ed t

/-- `write_bin` (lines 97-121), modelled as the byte string written plus the
no-data warning flag. -/
def write_bin (segments : List Span) (base_addr : Int) (pad : Nat) : WriteResult :=
  match segments with
  | [] => ⟨true, []⟩
  | _ :: _ =>
    let start := min (firstSt segments) base_addr
    let en := lastEd segments
    let r := writeLoop pad start segments
    ⟨false, r.1 ++ (if r.2 < en then List.replicate (en - r.2).toNat pad else [])⟩

/-! ### HEX decoding (`read_hex_records`, lines 19-34)

The decoder works on text lines; `line.strip()`, Python slicing, `int(s, 16)`
and `bytes.fromhex` are modelled character-for-character.  The file is opened
with `encoding='ascii', errors='ignore'`, so lines contain ASCII only. -/

/-- ASCII C-locale whitespace: the characters CPython's `int(s, base)` strips
around the digits and `bytes.fromhex` skips between byte pairs. -/
def isWs (c : Char) : Bool :=
  c == ' ' || c == '\t' || c == '\n' || c == '\r' || c == Char.ofNat 11 || c == Char.ofNat 12

/-- ASCII characters `str.strip()` removes: beyond the C-locale whitespace,
`str.isspace()` is also true of the controls U+001C-U+001F (which survive the
`ascii`/`errors='ignore'` decode); `int()` does not strip those. -/
def isStripWs (c : Char) : Bool :=
  isWs c || c == Char.ofNat 28 || c == Char.ofNat 29 || c == Char.ofNat 30 || c == Char.ofNat 31

/-- Value of one hexadecimal digit, `none` for any other character. -/
def hexVal (c : Char) : Option Nat :=
  if '0' ≤ c ∧ c ≤ '9' then some (c.toNat - 48)
  else if 'a' ≤ c ∧ c ≤ 'f' then some (c.toNat - 87)
  else if 'A' ≤ c ∧ c ≤ 'F' then some (c.toNat - 55)
  else none

/-- `line.strip()` on an ASCII line. -/
def pyStrip (cs : List Char) : List Char :=
  ((cs.dropWhile isStripWs).reverse.dropWhile isStripWs).reverse

/-- The whitespace stripping `int(s, 16)` itself performs (C-locale set only). -/
def intStrip (cs : List Char) : List Char :=
  ((cs.dropWhile isWs).reverse.dropWhile isWs).reverse

/-- Hex digits after the first one, with single underscores allowed between
digits (PEP 515), accumulating the value. -/
def digitsRest (acc : Nat) : List Char → Option Nat
  | [] => some acc
  | '_' :: c :: cs => (hexVal c).bind fun d => digitsRest (16 * acc + d) cs
  | c :: cs => (hexVal c).bind fun d => digitsRest (16 * acc + d) cs

/-- A non-empty run of hex digits (underscores between digits allowed). -/
def digitsRun : List Char → Option Nat
  | c :: cs => (hexVal c).bind fun d => digitsRest d cs
  | [] => none

/-- Digits after a `0x`/`0X` marker: one leading underscore is also allowed. -/
def digitsAfterMark : List Char → Option Nat
  | '_' :: c :: cs => (hexVal c).bind fun d => digitsRest d cs
  | cs => digitsRun cs

/-- Magnitude part of `int(s, 16)`: optional `0x`/`0X` marker, then digits. -/
def pyIntHexMag : List Char → Option Nat
  | '0' :: 'x' :: cs => digitsAfterMark cs
  | '0' :: 'X' :: cs => digitsAfterMark cs
  | cs => digitsRun cs

/-- CPython `int(s, 16)`: strip whitespace, optional sign, optional `0x`
marker, hex digits with underscores between digits; anything else raises
(`none`). -/
def pyIntHex (cs : List Char) : Option Int :=
  match intStrip cs with
  | '+' :: r => (pyIntHexMag r).map Int.ofNat
  | '-' :: r => (pyIntHexMag r).map fun n => -(n : Int)
  | r => (pyIntHexMag r).map Int.ofNat

/-- Python slice `cs[a:b]` with a non-negative lower index: the upper index is
clamped to `[0, len]`, counting from the end when negative. -/
def pySlice (cs : List Char) (a : Nat) (b : Int) : List Char :=
  let n : Int := cs.length
  let bb : Int := if b < 0 then max (n + b) 0 else min b n
  (cs.take bb.toNat).drop a

/-- `bytes.fromhex`: pairs of hex digits, ASCII whitespace allowed between
pairs; an odd tail or a non-hex character raises (`none`). -/
def fromHex : List Char → Option (List Nat)
  | [] => some []
  | c :: cs =>
    if isWs c then fromHex cs
    else
      match cs with
      | [] => none
      | c2 :: cs2 =>
        (hexVal c).bind fun h1 =>
          (hexVal c2).bind fun h2 =>
            (fromHex cs2).map fun bs => (16 * h1 + h2) :: bs

/-- Outcome of scanning one physical line: skipped, or a parsed record
`(count, addr, rtype, data)`. -/
inductive LineP
  | skip
  | record (count addr rtype : Int) (data : List Nat)
deriving DecidableEq, Repr

/-- Lines 23-28 of the source: strip the line, skip blank lines and lines not
starting with `:`, then parse the fixed-width fields and the payload.  A field
rejected by `int(·, 16)` or a bad payload raises (`Except.error`). -/
def parseRecord (raw : List Char) : Except Unit LineP :=
  match pyStrip raw with
  | [] => .ok .skip
  | c :: l =>
    if c = ':' then
      match pyIntHex (pySlice (c :: l) 1 3), pyIntHex (pySlice (c :: l) 3 7),
            pyIntHex (pySlice (c :: l) 7 9) with
      | some count, some addr, some rtype =>
        match fromHex (pySlice (c :: l) 9 (9 + count * 2)) with
        | some data => .ok (.record count addr rtype data)
        | none => .error ()
      | _, _, _ => .error ()
    else .ok .skip

/-- `read_hex_records` (lines 19-34) over the file's lines, threading the
extended linear address accumulator `ext_addr` (here `e`, always a left-shifted
16-bit value, hence a `Nat`).  `Except.error` models an uncaught exception. -/
def read_hex_records (lines : List (List Char)) (e : Nat) :
    Except Unit (List (Int × List Nat)) :=
  match lines with
  | [] => .ok []
  | l :: rest =>
    match parseRecord l with
    | .error _ => .error ()
    | .ok .skip => read_hex_records rest e
    | .ok (.record _ addr rtype data) =>
      if rtype = 0 then
        -- Data record: yield ext_addr + addr, data
        (read_hex_records rest e).map fun cs => ((e : Int) + addr, data) :: cs
      else if rtype = 4 then
        -- Extended Linear Address: struct.unpack('>H', data) needs 2 bytes
        match data with
        | [b0, b1] => read_hex_records rest ((b0 * 256 + b1) <<< 16)
        | _ => .error ()
      else if rtype = 1 then .ok []
      else read_hex_records rest e

/-! ### Input collection (`collect_segments`, lines 42-75)

The CLI `@addr` token split and `pathlib` are thin glue (out of scope per the
spec); an input item carries what the dispatch on lines 49-74 extracts from it:
whether the path exists, the suffix-determined kind with the file's content,
and the optional load address. -/

/-- Content of one input file, tagged by the suffix dispatch
(`.hex` / `.bin` / anything else). -/
inductive FContent
  | hexFile (lines : List (List Char))
  | binFile (bytes : List Nat)
  | otherFile
deriving DecidableEq

/-- One element of the input file list after the `@addr` split. -/
structure InputItem where
  present : Bool
  content : FContent
  load_addr : Option Int
deriving DecidableEq

/-- How a run of `collect_segments` can abort: `sys.exit(1)` on a BIN without
a load address (line 70), or an uncaught exception from the HEX decoder. -/
inductive MergeErr
  | MissingAddress
  | ParseError
deriving DecidableEq, Repr

/-- The chunk-gathering loop of `collect_segments` (lines 48-75). -/
def gather : List InputItem → Except MergeErr (List (Int × List Nat))
  | [] => .ok []
  | it :: rest =>
    if it.present then
      match it.content with
      | .hexFile lines =>
        match read_hex_records lines 0 with
        | .error _ => .error .ParseError
        | .ok cs => (gather rest).map fun acc => cs ++ acc
      | .binFile bs =>
        match it.load_addr with
        | none => .error .MissingAddress
        | some a => (gather rest).map fun acc => (a, bs) :: acc
      | .otherFile => gather rest
    else gather rest

/-- `collect_segments` (lines 42-93): gather chunks from all inputs, then sort
and merge them. -/
def collect_segments (items : List InputItem) : Except MergeErr (List Span) :=
  (gather items).map mergeSegs

/-! ### Invariants of the merge fold -/

/-- Invariant of the reversed accumulator `merged`: every span is well-formed
and (read back-to-front) spans are strictly separated. -/
def InvRev (acc : List Span) : Prop :=
  (∀ s ∈ acc, SpanWF s) ∧ acc.Pairwise fun a b => b.ed < a.st

lemma spanWF_st_le_ed {s : Span} (h : SpanWF s) : s.st ≤ s.ed := by
  unfold SpanWF at h; omega

lemma invRev_foldl (l : List Span) :
    ∀ acc : List Span, l.Sorted spanLE → (∀ s ∈ l, SpanWF s) → InvRev acc →
      (∀ a, acc.head? = some a → ∀ s ∈ l, a.st ≤ s.st) →
      InvRev (l.foldl mergeStep acc) := by
  induction l with
  | nil => intro acc _ _ h _; exact h
  | cons x t ih =>
    intro acc hs hw hinv hhd
    rw [List.foldl_cons]
    have hxt : ∀ s ∈ t, x.st ≤ s.st := List.rel_of_sorted_cons hs
    have hwx : SpanWF x := hw x (List.mem_cons_self x t)
    have hnew : InvRev (mergeStep acc x) ∧
        (∀ a, (mergeStep acc x).head? = some a → ∀ s ∈ t, a.st ≤ s.st) := by
      match acc with
      | [] =>
        refine ⟨⟨?_, by simp only [mergeStep]; exact List.pairwise_singleton _ x⟩, ?_⟩
        · intro s hms
          simp only [mergeStep, List.mem_singleton] at hms
          exact hms ▸ hwx
        · intro a ha s hst
          simp only [mergeStep, List.head?] at ha
          cases ha
          exact hxt s hst
      | aa :: r =>
        have haa : aa.st ≤ x.st := hhd aa rfl x (List.mem_cons_self x t)
        have hwa : SpanWF aa := hinv.1 aa (List.mem_cons_self aa r)
        have hraa : ∀ b ∈ r, b.ed < aa.st := fun b hb => List.rel_of_pairwise_cons hinv.2 hb
        by_cases hov : x.st ≤ aa.ed
        · by_cases hfw : aa.ed < x.ed
          · -- forward extension fires
            have hstep : mergeStep (aa :: r) x =
                ⟨aa.st, max x.ed aa.ed, aa.bs ++ x.bs.drop (aa.ed - x.st).toNat⟩ :: r := by
              simp only [mergeStep, if_pos hov, if_neg (not_lt.mpr haa), if_pos hfw]
            rw [hstep]
            refine ⟨⟨?_, ?_⟩, ?_⟩
            · intro s hms
              rcases List.mem_cons.mp hms with h | h
              · subst h
                have hx : SpanWF x := hwx
                unfold SpanWF at hwa hx ⊢
                simp only [List.length_append, List.length_drop]
                omega
              · exact hinv.1 s (List.mem_cons_of_mem aa h)
            · exact List.Pairwise.cons (fun b hb => hraa b hb)
                (List.Pairwise.sublist (List.sublist_cons_self aa r) hinv.2)
            · intro a ha s hst
              simp only [List.head?, Option.some.injEq] at ha
              have : a.st = aa.st := by rw [← ha]
              rw [this]
              exact le_trans haa (hxt s hst)
          · -- fully contained: accumulator unchanged
            have hstep : mergeStep (aa :: r) x = aa :: r := by
              simp only [mergeStep, if_pos hov, if_neg (not_lt.mpr haa), if_neg hfw]
            rw [hstep]
            refine ⟨hinv, ?_⟩
            intro a ha s hst
            simp only [List.head?, Option.some.injEq] at ha
            exact ha ▸ le_trans haa (hxt s hst)
        · -- gap: a new trailing span is started
          have hstep : mergeStep (aa :: r) x = x :: aa :: r := by
            simp only [mergeStep, if_neg hov]
          rw [hstep]
          have hlt : aa.ed < x.st := not_le.mp hov
          refine ⟨⟨?_, ?_⟩, ?_⟩
          · intro s hms
            rcases List.mem_cons.mp hms with h | h
            · exact h ▸ hwx
            · exact hinv.1 s h
          · refine List.Pairwise.cons ?_ hinv.2
            intro b hb
            rcases List.mem_cons.mp hb with h | h
            · exact h ▸ hlt
            · exact lt_trans (lt_of_lt_of_le (hraa b h) (spanWF_st_le_ed hwa)) hlt
          · intro a ha s hst
            simp only [List.head?, Option.some.injEq] at ha
            exact ha ▸ hxt s hst
    exact ih (mergeStep acc x) hs.of_cons
      (fun s hm => hw s (List.mem_cons_of_mem _ hm)) hnew.1 hnew.2

lemma toSpan_wf (c : Int × List Nat) : SpanWF (toSpan c) := rfl

lemma mergeSegs_invRev (cs : List (Int × List Nat)) :
    InvRev ((List.insertionSort spanLE (cs.map toSpan)).foldl mergeStep []) := by
  apply invRev_foldl
  · exact List.sorted_insertionSort spanLE _
  · intro s hms
    have : s ∈ cs.map toSpan := (List.perm_insertionSort spanLE _).mem_iff.mp hms
    rcases List.mem_map.mp this with ⟨c, _, hc⟩
    exact hc ▸ toSpan_wf c
  · exact ⟨fun s h => absurd h (List.not_mem_nil s), List.Pairwise.nil⟩
  · intro a ha
    simp at ha

/-- The merger's output spans are well-formed: bytes have length
`end - start`. -/
lemma mergeSegs_wf (cs : List (Int × List Nat)) : ∀ s ∈ mergeSegs cs, SpanWF s := by
  intro s hms
  exact (mergeSegs_invRev cs).1 s (List.mem_reverse.mp hms)

/-- The merger's output spans are pairwise strictly separated in order. -/
lemma mergeSegs_pairwise (cs : List (Int × List Nat)) :
    (mergeSegs cs).Pairwise fun a b => a.ed < b.st := by
  unfold mergeSegs
  rw [List.pairwise_reverse]
  exact (mergeSegs_invRev cs).2

/-! ### Idempotence machinery: sorting a merged list against itself -/

lemma mem_dup {s : Span} : ∀ {l : List Span}, s ∈ dup l ↔ s ∈ l := by
  intro l
  induction l with
  | nil => simp [dup]
  | cons a t ih => simp [dup, ih, List.mem_cons, or_assoc, or_self_left]

lemma dup_perm (l : List Span) : (l ++ l).Perm (dup l) := by
  induction l with
  | nil => simp [dup]
  | cons a t ih =>
    simp only [List.cons_append, dup]
    refine List.Perm.cons a ?_
    have h1 : (t ++ a :: t).Perm (a :: (t ++ t)) := List.perm_middle
    exact h1.trans (ih.cons a)

lemma dup_sorted {l : List Span} (hp : l.Pairwise fun a b => a.ed < b.st)
    (hw : ∀ s ∈ l, SpanWF s) : (dup l).Sorted spanLE := by
  induction l with
  | nil => exact List.sorted_nil
  | cons a t ih =>
    have ha : ∀ s ∈ t, a.ed < s.st := fun b hb => List.rel_of_pairwise_cons hp hb
    have hwa := spanWF_st_le_ed (hw a (List.mem_cons_self a t))
    have hrest : (dup t).Sorted spanLE :=
      ih hp.of_cons fun s hs => hw s (List.mem_cons_of_mem _ hs)
    have hle : ∀ b ∈ dup t, spanLE a b := by
      intro b hb
      exact le_of_lt (lt_of_le_of_lt hwa (ha b (mem_dup.mp hb)))
    simp only [dup]
    exact List.Pairwise.cons
      (fun b hb => by
        rcases List.mem_cons.mp hb with h | h
        · exact h ▸ le_refl a.st
        · exact hle b h)
      (List.Pairwise.cons hle hrest)

lemma key_inj {l : List Span} (hp : l.Pairwise fun a b => a.ed < b.st)
    (hw : ∀ s ∈ l, SpanWF s) :
    ∀ a ∈ l, ∀ b ∈ l, a.st = b.st → a = b := by
  induction l with
  | nil => intro a ha; exact absurd ha (List.not_mem_nil a)
  | cons x t ih =>
    intro a ha b hb heq
    have hx : ∀ s ∈ t, x.ed < s.st := fun s hs => List.rel_of_pairwise_cons hp hs
    have hwx := spanWF_st_le_ed (hw x (List.mem_cons_self x t))
    rcases List.mem_cons.mp ha with ha' | ha' <;> rcases List.mem_cons.mp hb with hb' | hb'
    · rw [ha', hb']
    · exfalso; subst ha'; have := hx b hb'; omega
    · exfalso; subst hb'; have := hx a ha'; omega
    · exact ih hp.of_cons (fun s hs => hw s (List.mem_cons_of_mem _ hs)) a ha' b hb' heq

lemma sorted_perm_unique :
    ∀ {l l' : List Span}, l.Perm l' → l.Sorted spanLE → l'.Sorted spanLE →
      (∀ a ∈ l, ∀ b ∈ l, a.st = b.st → a = b) → l = l' := by
  intro l
  induction l with
  | nil =>
    intro l' p _ _ _
    exact (p.symm.eq_nil).symm
  | cons a t ih =>
    intro l' p hs hs' hkey
    have ha' : a ∈ l' := p.mem_iff.mp (List.mem_cons_self a t)
    cases l' with
    | nil => exact absurd ha' (List.not_mem_nil a)
    | cons b t' =>
      have hab : a = b := by
        by_contra hne
        have hat' : a ∈ t' := by
          rcases List.mem_cons.mp ha' with h | h
          · exact absurd h hne
          · exact h
        have hbt : b ∈ t := by
          have hb : b ∈ a :: t := p.mem_iff.mpr (List.mem_cons_self b t')
          rcases List.mem_cons.mp hb with h | h
          · exact absurd h.symm hne
          · exact h
        have h1 : a.st ≤ b.st := List.rel_of_sorted_cons hs b hbt
        have h2 : b.st ≤ a.st := List.rel_of_sorted_cons hs' a hat'
        exact hne (hkey a (List.mem_cons_self a t) b (List.mem_cons_of_mem _ hbt)
          (le_antisymm h1 h2))
      subst hab
      have p' : t.Perm t' := p.cons_inv
      rw [ih p' hs.of_cons hs'.of_cons
        fun x hx y hy hxy =>
          hkey x (List.mem_cons_of_mem _ hx) y (List.mem_cons_of_mem _ hy) hxy]

lemma foldl_dup : ∀ (l acc : List Span), l.Pairwise (fun a b => a.ed < b.st) →
    (∀ s ∈ l, SpanWF s) →
    (∀ a, acc.head? = some a → ∀ s ∈ l, a.ed < s.st) →
    (dup l).foldl mergeStep acc = l.reverse ++ acc := by
  intro l
  induction l with
  | nil => intro acc _ _ _; rfl
  | cons x t ih =>
    intro acc hp hw hhd
    have hwx := hw x (List.mem_cons_self x t)
    have h1 : mergeStep acc x = x :: acc := by
      cases acc with
      | nil => rfl
      | cons a r =>
        have hlt : a.ed < x.st := hhd a rfl x (List.mem_cons_self x t)
        simp only [mergeStep, if_neg (not_le.mpr hlt)]
    have h2 : mergeStep (x :: acc) x = x :: acc := by
      have hle : x.st ≤ x.ed := spanWF_st_le_ed hwx
      simp only [mergeStep, if_pos hle, if_neg (lt_irrefl x.st), if_neg (lt_irrefl x.ed)]
    simp only [dup, List.foldl_cons, h1, h2]
    rw [ih (x :: acc) hp.of_cons (fun s hs => hw s (List.mem_cons_of_mem _ hs))
      (by
        intro a ha s hst
        simp only [List.head?, Option.some.injEq] at ha
        exact ha ▸ List.rel_of_pairwise_cons hp hst)]
    simp [List.reverse_cons, List.append_assoc]

lemma mergeSegs_idem (cs : List (Int × List Nat)) :
    mergeSegs ((mergeSegs cs ++ mergeSegs cs).map fun s => (s.st, s.bs)) = mergeSegs cs := by
  set L := mergeSegs cs with hL
  have hw := mergeSegs_wf cs
  have hp := mergeSegs_pairwise cs
  rw [← hL] at hw hp
  have hww : ∀ s ∈ L ++ L, SpanWF s := by
    intro s hs
    rcases List.mem_append.mp hs with h | h <;> exact hw s h
  have hmap : ((L ++ L).map fun s => (s.st, s.bs)).map toSpan = L ++ L := by
    rw [List.map_map]
    calc (L ++ L).map (fun s => toSpan (s.st, s.bs))
        _ = (L ++ L).map id := by
            apply List.map_congr_left
            intro s hs
            have hws : SpanWF s := hww s hs
            cases s with
            | mk st ed bs =>
              simp only [toSpan, id_eq, Span.mk.injEq, true_and, and_true]
              unfold SpanWF at hws
              exact hws.symm
        _ = L ++ L := List.map_id _
  have hsort : List.insertionSort spanLE (L ++ L) = dup L := by
    apply sorted_perm_unique
    · exact (List.perm_insertionSort spanLE _).trans (dup_perm L)
    · exact List.sorted_insertionSort spanLE _
    · exact dup_sorted hp hw
    · intro a ha b hb heq
      have perm := List.perm_insertionSort spanLE (L ++ L)
      have ha' : a ∈ L := by
        rcases List.mem_append.mp (perm.mem_iff.mp ha) with h | h <;> exact h
      have hb' : b ∈ L := by
        rcases List.mem_append.mp (perm.mem_iff.mp hb) with h | h <;> exact h
      exact key_inj hp hw a ha' b hb' heq
  unfold mergeSegs
  rw [hmap, hsort, foldl_dup L [] hp hw (by intro a ha; simp at ha)]
  simp

/-! ### Writer correctness -/

lemma firstSt_le {l : List Span} (hp : l.Pairwise fun a b => a.ed < b.st)
    (hw : ∀ s ∈ l, SpanWF s) : ∀ s ∈ l, firstSt l ≤ s.st := by
  cases l with
  | nil => intro s hs; exact absurd hs (List.not_mem_nil s)
  | cons h t =>
    intro s hs
    have hfs : firstSt (h :: t) = h.st := by simp [firstSt]
    rw [hfs]
    rcases List.mem_cons.mp hs with he | he
    · rw [he]
    · have h1 := List.rel_of_pairwise_cons hp he
      have h2 := spanWF_st_le_ed (hw h (List.mem_cons_self h t))
      omega

lemma lastEdD_eq : ∀ (l : List Span) (pos : Int), l ≠ [] → lastEdD pos l = lastEd l
  | [s], _, _ => rfl
  | s :: s2 :: t, pos, _ => by
    show lastEdD s.ed (s2 :: t) = lastEd (s :: s2 :: t)
    rw [lastEdD_eq (s2 :: t) s.ed (by simp)]
    simp [lastEd, List.getLastD_cons]

lemma writeLoop_spec (pad : Nat) :
    ∀ (l : List Span) (pos : Int), l.Pairwise (fun a b => a.ed < b.st) →
      (∀ s ∈ l, SpanWF s) → (∀ s ∈ l, pos ≤ s.st) →
      (writeLoop pad pos l).2 = lastEdD pos l ∧
      pos ≤ (writeLoop pad pos l).2 ∧
      (((writeLoop pad pos l).1.length : Int) = (writeLoop pad pos l).2 - pos) ∧
      (∀ s ∈ l, ∀ k, k < s.bs.length →
        (writeLoop pad pos l).1[(s.st - pos).toNat + k]? = s.bs[k]?) ∧
      (∀ j, j < (writeLoop pad pos l).1.length →
        (∀ s ∈ l, ¬(s.st - pos ≤ (j : Int) ∧ (j : Int) < s.ed - pos)) →
        (writeLoop pad pos l).1[j]? = some pad) := by
  intro l
  induction l with
  | nil =>
    intro pos _ _ _
    refine ⟨rfl, le_refl pos, by simp [writeLoop], ?_, ?_⟩
    · intro s hs; exact absurd hs (List.not_mem_nil s)
    · intro j hj; simp [writeLoop] at hj
  | cons s t ih =>
    intro pos hp hw hpos
    have hwx : SpanWF s := hw s (List.mem_cons_self s t)
    have hpx : pos ≤ s.st := hpos s (List.mem_cons_self s t)
    have hsep : ∀ x ∈ t, s.ed < x.st := fun x hx => List.rel_of_pairwise_cons hp hx
    obtain ⟨ih1, ih2, ih3, ih4, ih5⟩ :=
      ih s.ed hp.of_cons (fun x hx => hw x (List.mem_cons_of_mem _ hx))
        (fun x hx => le_of_lt (hsep x hx))
    have hunfold : writeLoop pad pos (s :: t) =
        (List.replicate (s.st - pos).toNat pad ++ s.bs ++ (writeLoop pad s.ed t).1,
         (writeLoop pad s.ed t).2) := by
      simp only [writeLoop]
      by_cases h : pos < s.st
      · rw [if_pos h]
      · rw [if_neg h]
        have h0 : (s.st - pos).toNat = 0 := by omega
        rw [h0]
        rfl
    have hg : ((s.st - pos).toNat : Int) = s.st - pos := Int.toNat_of_nonneg (by omega)
    have hlen2 : s.ed = s.st + (s.bs.length : Int) := hwx
    have hlenR : ((writeLoop pad s.ed t).1.length : Int) = (writeLoop pad s.ed t).2 - s.ed := ih3
    rw [hunfold]
    refine ⟨?_, ?_, ?_, ?_, ?_⟩
    · simpa [lastEdD] using ih1
    · simp only
      omega
    · simp only [List.length_append, List.length_replicate]
      omega
    · intro s' hs' k hk
      simp only
      rcases List.mem_cons.mp hs' with he | he
      · subst he
        rw [List.getElem?_append,
          if_pos (by simp only [List.length_append, List.length_replicate]; omega)]
        rw [List.getElem?_append_right (by simp only [List.length_replicate]; omega)]
        have hidx : (s'.st - pos).toNat + k - (List.replicate (s'.st - pos).toNat pad).length = k := by
          simp [List.length_replicate]
        rw [hidx]
      · have hlt : s.ed < s'.st := hsep s' he
        have hws' : SpanWF s' := hw s' (List.mem_cons_of_mem _ he)
        rw [List.getElem?_append_right
          (by simp only [List.length_append, List.length_replicate]; omega)]
        have hidx : (s'.st - pos).toNat + k -
            (List.replicate (s.st - pos).toNat pad ++ s.bs).length =
            (s'.st - s.ed).toNat + k := by
          simp only [List.length_append, List.length_replicate]
          omega
        rw [hidx]
        exact ih4 s' he k hk
    · intro j hj hnc
      simp only [List.length_append, List.length_replicate] at hj
      simp only
      have hncs := hnc s (List.mem_cons_self s t)
      by_cases h1 : j < (s.st - pos).toNat
      · rw [List.getElem?_append,
          if_pos (by simp only [List.length_append, List.length_replicate]; omega)]
        rw [List.getElem?_append, if_pos (by simp only [List.length_replicate]; omega)]
        rw [List.getElem?_replicate, if_pos h1]
      · by_cases h2 : j < (s.st - pos).toNat + s.bs.length
        · exfalso
          apply hncs
          constructor <;> omega
        · rw [List.getElem?_append_right
            (by simp only [List.length_append, List.length_replicate]; omega)]
          have hidx : j - (List.replicate (s.st - pos).toNat pad ++ s.bs).length =
              j - ((s.st - pos).toNat + s.bs.length) := by
            simp [List.length_append, List.length_replicate]
          rw [hidx]
          apply ih5
          · omega
          · intro s' hs'
            have := hnc s' (List.mem_cons_of_mem _ hs')
            have hlt : s.ed < s'.st := hsep s' hs'
            omega

/-- Full characterization of `write_bin` on a non-empty well-formed span list:
no warning, total size `end - start`, each span's bytes at its offset, pad
everywhere else. -/
lemma write_bin_spec (segs : List Span) (base : Int) (pad : Nat) (hne : segs ≠ [])
    (hp : segs.Pairwise fun a b => a.ed < b.st) (hw : ∀ s ∈ segs, SpanWF s) :
    (write_bin segs base pad).noData = false ∧
    (((write_bin segs base pad).bytes.length : Int) = lastEd segs - min (firstSt segs) base) ∧
    (∀ s ∈ segs, ∀ k, k < s.bs.length →
      (write_bin segs base pad).bytes[(s.st - min (firstSt segs) base).toNat + k]? = s.bs[k]?) ∧
    (∀ j, j < (write_bin segs base pad).bytes.length →
      (∀ s ∈ segs, ¬(s.st - min (firstSt segs) base ≤ (j : Int) ∧
        (j : Int) < s.ed - min (firstSt segs) base)) →
      (write_bin segs base pad).bytes[j]? = some pad) := by
  match segs, hne with
  | h :: t, _ =>
    set segs := h :: t with hsegs
    set start := min (firstSt segs) base with hstart
    have hps : ∀ s ∈ segs, start ≤ s.st := by
      intro s hs
      exact le_trans (min_le_left _ _) (firstSt_le hp hw s hs)
    obtain ⟨w1, w2, w3, w4, w5⟩ := writeLoop_spec pad segs start hp hw hps
    have hfin : (writeLoop pad start segs).2 = lastEd segs := by
      rw [w1]
      exact lastEdD_eq segs start (by simp [hsegs])
    have hwb : write_bin segs base pad = ⟨false, (writeLoop pad start segs).1⟩ := by
      rw [hsegs]
      show (⟨false, _ ++ _⟩ : WriteResult) = _
      rw [← hsegs, ← hstart]
      have : ¬ ((writeLoop pad start segs).2 < lastEd segs) := by
        rw [hfin]
        exact lt_irrefl _
      rw [if_neg this, List.append_nil]
    rw [hwb]
    refine ⟨rfl, ?_, ?_, ?_⟩
    · rw [w3, hfin]
    · exact w4
    · exact w5

lemma firstSt_le_lastEd (l : List Span) (hne : l ≠ [])
    (hp : l.Pairwise fun a b => a.ed < b.st) (hw : ∀ s ∈ l, SpanWF s) :
    firstSt l ≤ lastEd l := by
  obtain ⟨h1, h2, _⟩ := writeLoop_spec 0 l (firstSt l) hp hw (firstSt_le hp hw)
  rw [h1, lastEdD_eq l _ hne] at h2
  exact h2

/-- If some present `.bin` item lacks a load address, the gathering loop of
`collect_segments` aborts (with whichever error strikes first). -/
lemma gather_err_of_bad : ∀ items : List InputItem,
    (∃ it ∈ items, it.present = true ∧ (∃ b, it.content = .binFile b) ∧
      it.load_addr = none) →
    ∃ e, gather items = .error e := by
  intro items
  induction items with
  | nil =>
    rintro ⟨it, hm, _⟩
    exact absurd hm (List.not_mem_nil it)
  | cons it rest ih =>
    rintro ⟨x, hx, hpres, ⟨bs, hcon⟩, hla⟩
    rcases List.mem_cons.mp hx with he | he
    · subst he
      exact ⟨.MissingAddress, by simp [gather, hpres, hcon, hla]⟩
    · obtain ⟨e, hrest⟩ := ih ⟨x, he, hpres, ⟨bs, hcon⟩, hla⟩
      by_cases hpr : it.present = true
      · cases hcn : it.content with
        | hexFile lines =>
          cases hhex : read_hex_records lines 0 with
          | error u => exact ⟨.ParseError, by simp [gather, hpr, hcn, hhex]⟩
          | ok cs => exact ⟨e, by simp [gather, hpr, hcn, hhex, hrest, Except.map]⟩
        | binFile b2 =>
          cases hla2 : it.load_addr with
          | none => exact ⟨.MissingAddress, by simp [gather, hpr, hcn, hla2]⟩
          | some a2 => exact ⟨e, by simp [gather, hpr, hcn, hla2, hrest, Except.map]⟩
        | otherFile => exact ⟨e, by simp [gather, hpr, hcn, hrest]⟩
      · exact ⟨e, by simp [gather, hpr, hrest]⟩

/-! ### Claims -/

/-- C1: For every input list of addressed chunks, the span list returned by the
segment merger (`collect_segments`' sort-and-fold) is sorted ascending by start
address and no two consecutive spans overlap or touch: for all i,
spans[i].end ≤ spans[i+1].start. -/
theorem C1_merged_sorted_separated (cs : List (Int × List Nat)) (i : Nat)
    (h : i + 1 < (mergeSegs cs).length) :
    ((mergeSegs cs).get ⟨i, Nat.lt_of_succ_lt h⟩).st ≤
      ((mergeSegs cs).get ⟨i + 1, h⟩).st ∧
    ((mergeSegs cs).get ⟨i, Nat.lt_of_succ_lt h⟩).ed ≤
      ((mergeSegs cs).get ⟨i + 1, h⟩).st := by
  have hp := mergeSegs_pairwise cs
  have hw := mergeSegs_wf cs
  have hsep : ((mergeSegs cs).get ⟨i, Nat.lt_of_succ_lt h⟩).ed <
      ((mergeSegs cs).get ⟨i + 1, h⟩).st :=
    List.pairwise_iff_get.mp hp ⟨i, Nat.lt_of_succ_lt h⟩ ⟨i + 1, h⟩ (Nat.lt_succ_self i)
  have hwi : SpanWF ((mergeSegs cs).get ⟨i, Nat.lt_of_succ_lt h⟩) :=
    hw _ (List.get_mem _ _ _)
  have hst := spanWF_st_le_ed hwi
  exact ⟨by omega, le_of_lt hsep⟩

theorem C1_witness :
    ((mergeSegs [((0 : Int), [1]), (5, [2])]).get ⟨0, by decide⟩).st ≤
      ((mergeSegs [((0 : Int), [1]), (5, [2])]).get ⟨0 + 1, by decide⟩).st ∧
    ((mergeSegs [((0 : Int), [1]), (5, [2])]).get ⟨0, by decide⟩).ed ≤
      ((mergeSegs [((0 : Int), [1]), (5, [2])]).get ⟨0 + 1, by decide⟩).st :=
  C1_merged_sorted_separated [((0 : Int), [1]), (5, [2])] 0 (by decide)

/-- C2 fails on the code: for chunks (0x100, 0xAA×32) and (0x110, 0xBB×32) the
merger yields the single span [0x100, 0x130), but the byte at address 0x110
(offset 16) is 0xAA from the first chunk, not 0xBB as the claim states — the
forward-extension branch appends only the non-overlapping suffix
`data[led-st:]` and keeps the trailing span's bytes in the overlap. -/
theorem C2_counterexample :
    mergeSegs [((0x100 : Int), List.replicate 32 0xAA), (0x110, List.replicate 32 0xBB)] =
      [⟨0x100, 0x130, List.replicate 32 0xAA ++ List.replicate 16 0xBB⟩] ∧
    (List.replicate 32 0xAA ++ List.replicate 16 0xBB)[16]? = some 0xAA ∧
    (0xAA : Nat) ≠ 0xBB := by
  exact ⟨by decide, by decide, by decide⟩

/-- C2 (amended): for the two overlapping chunks (0x100, 0xAA×32) and
(0x110, 0xBB×32) the merger produces the single span [0x100, 0x130) in which
the bytes of the overlap [0x110, 0x120) come from the FIRST chunk (0xAA) and
only the non-overlapping suffix [0x120, 0x130) comes from the second chunk. -/
theorem C2_amended_overlap_keeps_first :
    mergeSegs [((0x100 : Int), List.replicate 32 0xAA), (0x110, List.replicate 32 0xBB)] =
      [⟨0x100, 0x130, List.replicate 32 0xAA ++ List.replicate 16 0xBB⟩] := by
  decide

/-- C3: every span in the merger's output satisfies
length(bytes) = end - start; the backward-extension branch (which could break
this) never fires after sorting by start. -/
theorem C3_span_length_invariant (cs : List (Int × List Nat)) :
    ∀ s ∈ mergeSegs cs, (s.bs.length : Int) = s.ed - s.st := by
  intro s hs
  have := mergeSegs_wf cs s hs
  unfold SpanWF at this
  omega

theorem C3_witness : ((([7] : List Nat).length : Int) = (1 : Int) - 0) :=
  C3_span_length_invariant [((0 : Int), [7])] ⟨0, 1, [7]⟩ (by decide)

/-- C4: merging an already-merged (non-empty) span list together with a second
copy of itself yields exactly the same span list. -/
theorem C4_merge_idempotent (cs : List (Int × List Nat))
    (_hne : mergeSegs cs ≠ []) :
    mergeSegs ((mergeSegs cs ++ mergeSegs cs).map fun s => (s.st, s.bs)) =
      mergeSegs cs :=
  mergeSegs_idem cs

theorem C4_witness :
    mergeSegs ((mergeSegs [((0 : Int), [7])] ++ mergeSegs [((0 : Int), [7])]).map
      fun s => (s.st, s.bs)) = mergeSegs [((0 : Int), [7])] :=
  C4_merge_idempotent [((0 : Int), [7])] (by decide)

/-- C5: for every non-empty merged span list, base address and pad byte, the
writer produces a buffer of length last.end - min(first.start, base); each
span's bytes sit at offsets [span.start - start, span.end - start), and every
position covered by no span holds the pad byte. -/
theorem C5_writer_layout (cs : List (Int × List Nat)) (base : Int) (pad : Nat)
    (hne : mergeSegs cs ≠ []) :
    (((write_bin (mergeSegs cs) base pad).bytes.length : Int) =
      lastEd (mergeSegs cs) - min (firstSt (mergeSegs cs)) base) ∧
    (∀ s ∈ mergeSegs cs, ∀ k, k < s.bs.length →
      (write_bin (mergeSegs cs) base pad).bytes[
        (s.st - min (firstSt (mergeSegs cs)) base).toNat + k]? = s.bs[k]?) ∧
    (∀ j, j < (write_bin (mergeSegs cs) base pad).bytes.length →
      (∀ s ∈ mergeSegs cs, ¬(s.st - min (firstSt (mergeSegs cs)) base ≤ (j : Int) ∧
        (j : Int) < s.ed - min (firstSt (mergeSegs cs)) base)) →
      (write_bin (mergeSegs cs) base pad).bytes[j]? = some pad) := by
  obtain ⟨_, h2, h3, h4⟩ :=
    write_bin_spec (mergeSegs cs) base pad hne (mergeSegs_pairwise cs) (mergeSegs_wf cs)
  exact ⟨h2, h3, h4⟩

theorem C5_witness :
    ((write_bin (mergeSegs [((0 : Int), [7]), (2, [9])]) 0 255).bytes.length : Int) =
      lastEd (mergeSegs [((0 : Int), [7]), (2, [9])]) -
        min (firstSt (mergeSegs [((0 : Int), [7]), (2, [9])])) 0 :=
  (C5_writer_layout [((0 : Int), [7]), (2, [9])] 0 255 (by decide)).1

/-- C6: a type-0x04 record with 2-byte big-endian payload v sets the extended
base to v << 16 and emits no chunk; a subsequent type-0x00 data record with
16-bit address a and payload d yields the chunk (base + a, d); in particular
`:02000004080000F2` followed by a data record at offset 0x0010 yields a chunk
at 0x08000010. -/
theorem C6_extended_linear_address :
    (∀ (e : Nat) (l : List Char) (rest : List (List Char)) (c a : Int) (b0 b1 : Nat),
      parseRecord l = .ok (.record c a 4 [b0, b1]) →
      read_hex_records (l :: rest) e = read_hex_records rest ((b0 * 256 + b1) <<< 16)) ∧
    (∀ (e : Nat) (l : List Char) (rest : List (List Char)) (c a : Int) (d : List Nat),
      parseRecord l = .ok (.record c a 0 d) →
      read_hex_records (l :: rest) e =
        (read_hex_records rest e).map fun cs => ((e : Int) + a, d) :: cs) ∧
    read_hex_records [(":02000004080000F2").toList, (":02001000DEADFF").toList] 0 =
      .ok [((0x08000010 : Int), [0xDE, 0xAD])] := by
  refine ⟨?_, ?_, by rfl⟩
  · intro e l rest c a b0 b1 h
    simp only [read_hex_records, h]
    norm_num
  · intro e l rest c a d h
    simp only [read_hex_records, h]
    simp

theorem C6_witness :
    read_hex_records [(":02000004080000F2").toList] 0 =
      read_hex_records [] ((8 * 256 + 0) <<< 16) :=
  C6_extended_linear_address.1 0 (":02000004080000F2").toList [] 2 0 8 0 (by rfl)

/-- C7: a present `.bin` input without a load address aborts the run
(MissingAddress, non-zero exit) — at the front of the list this is the exact
error, and anywhere in the list the run still aborts; conversely a `.bin`
input with address a contributes exactly the single chunk (a, contents). -/
theorem C7_bin_load_address (bs : List Nat) (a : Int) (rest : List InputItem)
    (items : List InputItem)
    (hbad : ∃ it ∈ items, it.present = true ∧ (∃ b, it.content = .binFile b) ∧
      it.load_addr = none) :
    gather (⟨true, .binFile bs, none⟩ :: rest) = .error .MissingAddress ∧
    (∃ e, collect_segments items = .error e) ∧
    gather (⟨true, .binFile bs, some a⟩ :: rest) =
      (gather rest).map fun acc => (a, bs) :: acc := by
  refine ⟨by simp [gather], ?_, by simp [gather]⟩
  obtain ⟨e, he⟩ := gather_err_of_bad items hbad
  exact ⟨e, by simp [collect_segments, he, Except.map]⟩

theorem C7_witness :
    gather [(⟨true, .binFile [1, 2], none⟩ : InputItem)] = .error .MissingAddress ∧
    (∃ e, collect_segments [(⟨true, .binFile [1, 2], none⟩ : InputItem)] = .error e) ∧
    gather [(⟨true, .binFile [1, 2], some 7⟩ : InputItem)] =
      (gather []).map fun acc => ((7 : Int), [1, 2]) :: acc :=
  C7_bin_load_address [1, 2] 7 [] [⟨true, .binFile [1, 2], none⟩]
    ⟨⟨true, .binFile [1, 2], none⟩, by simp, rfl, ⟨[1, 2], rfl⟩, rfl⟩

/-- C8 fails on the code: with base address 5 past all data (last end = 1) the
writer does not produce an empty/error result — it writes the ordinary data
bytes [170] with no warning, because start = min(first, base) clamps the range
to the data. -/
theorem C8_counterexample :
    lastEd (mergeSegs [((0 : Int), [170])]) < 5 ∧
    write_bin (mergeSegs [((0 : Int), [170])]) 5 255 = ⟨false, [170]⟩ := by
  exact ⟨by decide, by decide⟩

/-- C8 (amended): when base_address > last_span.end the writer neither errors
nor produces a negative-size or empty buffer: since start = min(first.start,
base_address) the range degenerates to the data range [first.start, last.end),
and the ordinary buffer of that non-negative size is produced. -/
theorem C8_amended_base_past_data (cs : List (Int × List Nat)) (base : Int)
    (pad : Nat) (hne : mergeSegs cs ≠ []) (hgt : lastEd (mergeSegs cs) < base) :
    (write_bin (mergeSegs cs) base pad).noData = false ∧
    ((write_bin (mergeSegs cs) base pad).bytes.length : Int) =
      lastEd (mergeSegs cs) - firstSt (mergeSegs cs) := by
  have hp := mergeSegs_pairwise cs
  have hw := mergeSegs_wf cs
  have hfl : firstSt (mergeSegs cs) ≤ lastEd (mergeSegs cs) :=
    firstSt_le_lastEd (mergeSegs cs) hne hp hw
  have hmin : min (firstSt (mergeSegs cs)) base = firstSt (mergeSegs cs) :=
    min_eq_left (by omega)
  obtain ⟨h1, h2, _, _⟩ := write_bin_spec (mergeSegs cs) base pad hne hp hw
  exact ⟨h1, by rw [h2, hmin]⟩

theorem C8_witness :
    (write_bin (mergeSegs [((0 : Int), [170])]) 5 255).noData = false ∧
    ((write_bin (mergeSegs [((0 : Int), [170])]) 5 255).bytes.length : Int) =
      lastEd (mergeSegs [((0 : Int), [170])]) - firstSt (mergeSegs [((0 : Int), [170])]) :=
  C8_amended_base_past_data [((0 : Int), [170])] 5 255 (by decide) (by decide)

/-- C9: for the empty merged span list the writer produces the empty buffer
together with the distinguishable no-data warning, and does not crash. -/
theorem C9_empty_output (base : Int) (pad : Nat) :
    write_bin [] base pad = ⟨true, []⟩ := rfl

/-- C10 fails on the code: the line ": 1000000AB" starts with ':' and its
byte-count field " 1" contains the non-hexadecimal character ' ', yet the
decoder raises no exception — Python's int(" 1", 16) strips whitespace — and
the line yields the chunk (0, [0xAB]). -/
theorem C10_counterexample :
    pySlice (pyStrip ((": 1000000AB").toList)) 1 3 = [' ', '1'] ∧
    hexVal ' ' = none ∧
    read_hex_records [(": 1000000AB").toList] 0 = .ok [((0 : Int), [0xAB])] := by
  exact ⟨by decide, rfl, by rfl⟩

/-- C10 (amended): for every HEX line that starts with ':' (after stripping)
and whose byte-count, 16-bit address, or record-type fixed-width field is
rejected by Python's int(·, 16) — which accepts, beyond hex digits,
surrounding ASCII whitespace, an optional sign, an optional 0x/0X marker and
underscores between digits — the decoder raises an exception (fails fast)
instead of skipping the line or emitting a chunk. -/
theorem C10_amended_bad_field_raises (raw : List Char) (rest : List (List Char))
    (e : Nat) (hcolon : (pyStrip raw).head? = some ':')
    (hbad : pyIntHex (pySlice (pyStrip raw) 1 3) = none ∨
            pyIntHex (pySlice (pyStrip raw) 3 7) = none ∨
            pyIntHex (pySlice (pyStrip raw) 7 9) = none) :
    read_hex_records (raw :: rest) e = .error () := by
  have hpr : parseRecord raw = .error () := by
    unfold parseRecord
    cases hst : pyStrip raw with
    | nil => rw [hst] at hcolon; simp at hcolon
    | cons c l =>
      rw [hst] at hcolon hbad
      have hc : c = ':' := by simpa using hcolon
      subst hc
      rcases hbad with h | h | h
      · cases h2 : pyIntHex (pySlice (':' :: l) 3 7) <;>
          cases h3 : pyIntHex (pySlice (':' :: l) 7 9) <;> simp [h, h2, h3]
      · cases h1 : pyIntHex (pySlice (':' :: l) 1 3) <;>
          cases h3 : pyIntHex (pySlice (':' :: l) 7 9) <;> simp [h, h1, h3]
      · cases h1 : pyIntHex (pySlice (':' :: l) 1 3) <;>
          cases h2 : pyIntHex (pySlice (':' :: l) 3 7) <;> simp [h, h1, h2]
  simp [read_hex_records, hpr]

theorem C10_witness :
    read_hex_records [(":G").toList] 0 = .error () :=
  C10_amended_bad_field_raises (":G").toList [] 0 (by decide) (Or.inl (by decide))

end HexMerge
